import Mathlib

/-!
Verification development for the Document-to-Quiz pipeline of `script.js`.

Strings are modeled as Lean `String` values (lists of characters); the
source operates on JavaScript strings of UTF-16 units, which coincide with
characters on the ASCII-range text this pipeline manipulates.  Each
JavaScript regular expression of the source is hand-compiled to an
executable scanner with the same leftmost-match, greedy/lazy backtracking
semantics.  `Math.random` is modeled as an explicit stream of natural
numbers supplied to the shuffle.  The `TextProcessor` normalization stages
are not needed by the properties below: every quiz-generation function
takes the already preprocessed text (the `this.text` field of
`QuizGenerator`) as its input.
-/

namespace FR

/-! ## Character classes of the JavaScript regexes (ASCII) -/

def isAsciiUpper (c : Char) : Bool := 'A' ≤ c && c ≤ 'Z'

def isAsciiLower (c : Char) : Bool := 'a' ≤ c && c ≤ 'z'

def isAsciiDigit (c : Char) : Bool := '0' ≤ c && c ≤ '9'

def isAsciiAlpha (c : Char) : Bool := isAsciiUpper c || isAsciiLower c

/-- The character class of the regex escape for whitespace, on ASCII input. -/
def jsWs (c : Char) : Bool :=
  c = ' ' || c = '\t' || c = '\n' || c = '\r' || c = '\x0b' || c = '\x0c'

/-- The regex word-character class: letters, digits and the underscore. -/
def isWordChar (c : Char) : Bool := isAsciiAlpha c || isAsciiDigit c || c = '_'

/-- JavaScript `toLowerCase` restricted to ASCII letters. -/
def lowerChar (c : Char) : Char :=
  if isAsciiUpper c then Char.ofNat (c.toNat + 32) else c

/-! ## JavaScript string primitives -/

/-- JavaScript `String.prototype.toLowerCase` on ASCII text. -/
def asciiLower (s : String) : String := ⟨s.data.map lowerChar⟩

/-- JavaScript `String.prototype.trim`. -/
def jsTrim (s : String) : String :=
  ⟨((s.data.dropWhile jsWs).reverse.dropWhile jsWs).reverse⟩

/-- JavaScript `String.prototype.includes` on character lists: `needle`
occurs somewhere in `hay` as a contiguous substring. -/
def containsSub : List Char → List Char → Bool
  | [], needle => needle.isPrefixOf ([] : List Char)
  | c :: t, needle => needle.isPrefixOf (c :: t) || containsSub t needle

/-- Number of positions of `hay` at which `needle` starts (used to state the
per-occurrence reading of the vocabulary score). -/
def countOccAux : List Char → List Char → Nat
  | [], needle => if needle.isPrefixOf ([] : List Char) then 1 else 0
  | c :: t, needle => (if needle.isPrefixOf (c :: t) then 1 else 0) + countOccAux t needle

def countOcc (hay needle : String) : Nat := countOccAux hay.data needle.data

/-- JavaScript `s.split` on the whitespace regex: pieces between maximal
whitespace runs, with an empty piece at an end that touches whitespace and
`[""]` on the empty string.  The first argument is fuel, structurally
consumed so that the scanner computes by kernel reduction; every step
shortens the text by at least one character, so fuel equal to the length
of the text never runs out. -/
def jsSplitWsGo : Nat → List Char → List Char → List String
  | _, [], acc => [⟨acc.reverse⟩]
  | 0, _ :: _, acc => [⟨acc.reverse⟩]
  | Nat.succ n, c :: rest, acc =>
    if jsWs c then
      (⟨acc.reverse⟩ : String) :: jsSplitWsGo n (rest.dropWhile jsWs) []
    else
      jsSplitWsGo n rest (c :: acc)

def jsSplitWs (s : String) : List String := jsSplitWsGo s.data.length s.data []

/-- The word count the source computes as the length of a whitespace split. -/
def wordCount (s : String) : Nat := (jsSplitWs s).length

/-! ## Sentence segmentation and filtering (`splitSentences`) -/

def isSentPunct (c : Char) : Bool := c = '.' || c = '!' || c = '?'

/-- Separator check for the split regex (a punctuation run then whitespace):
`l` are the characters after an initial sentence punctuation character; the
rest of the punctuation run must be followed by at least one whitespace
character, and the characters after the whitespace run are returned. -/
def sentSepTail (l : List Char) : Option (List Char) :=
  match l.dropWhile isSentPunct with
  | [] => none
  | d :: r => if jsWs d then some ((d :: r).dropWhile jsWs) else none

theorem sentSepTail_length_le {l r : List Char} (h : sentSepTail l = some r) :
    r.length ≤ l.length := by
  unfold sentSepTail at h
  have h1 : (l.dropWhile isSentPunct).length ≤ l.length :=
    (List.dropWhile_sublist isSentPunct).length_le
  cases hd : l.dropWhile isSentPunct with
  | nil => rw [hd] at h; exact absurd h (by simp)
  | cons d t =>
    rw [hd] at h h1
    by_cases hw : jsWs d
    · simp only [hw, if_true, Option.some.injEq] at h
      subst h
      have h2 : ((d :: t).dropWhile jsWs).length ≤ (d :: t).length :=
        (List.dropWhile_sublist jsWs).length_le
      omega
    · simp [hw] at h

/-- The raw split of `text.split` on the sentence-separator regex, before
trimming and filtering; fueled like `jsSplitWsGo` (each step consumes at
least one character, see `sentSepTail_length_le`). -/
def splitSentGo : Nat → List Char → List Char → List String
  | _, [], acc => [⟨acc.reverse⟩]
  | 0, _ :: _, acc => [⟨acc.reverse⟩]
  | Nat.succ n, c :: rest, acc =>
    if isSentPunct c then
      match sentSepTail rest with
      | some rest2 => (⟨acc.reverse⟩ : String) :: splitSentGo n rest2 []
      | none => splitSentGo n rest (c :: acc)
    else
      splitSentGo n rest (c :: acc)

def rawSentences (text : String) : List String :=
  splitSentGo text.data.length text.data []

/-- The candidate sentences: each raw piece trimmed. -/
def trimmedCandidates (text : String) : List String := (rawSentences text).map jsTrim

/-- Whether a candidate contains a run of three consecutive ASCII letters. -/
def hasAlphaRun3 : List Char → Bool
  | a :: b :: c :: rest =>
    (isAsciiAlpha a && isAsciiAlpha b && isAsciiAlpha c) || hasAlphaRun3 (b :: c :: rest)
  | _ => false

/-- Number of digit characters of a candidate (the matches of the digit
regex with the global flag, one character each). -/
def digitCount (s : String) : Nat := (s.data.filter isAsciiDigit).length

/-- The quality filter of `splitSentences`, on an already trimmed candidate. -/
def goodSentence (s : String) : Bool :=
  decide (3 ≤ wordCount s) && hasAlphaRun3 s.data &&
    decide (20 < s.length) && decide (s.length < 500) &&
    decide (2 * digitCount s < s.length)

/-- `QuizGenerator.splitSentences` applied to the preprocessed text. -/
def splitSentences (text : String) : List String :=
  (trimmedCandidates text).filter goodSentence

/-! ## Importance scorer (`extractKeySentences`)

Scores are rationals: the source adds integer bonuses and one value of the
form `min(count * 0.5, 3)`; all of these are exactly representable by the
double-precision floats JavaScript computes with, so rational arithmetic
models the source exactly. -/

/-- Scanner for the capitalized-word regex with the global flag: a word
boundary, one uppercase ASCII letter, at least `minLow` lowercase ASCII
letters, then a word boundary.  The Boolean argument records whether the
previous character was a word character (false at the start of the text);
after a match the scan resumes at the match end. -/
def capTokenGo (minLow : Nat) : Nat → Bool → List Char → List String
  | _, _, [] => []
  | 0, _, _ :: _ => []
  | Nat.succ n, prevW, c :: rest =>
    if !prevW && isAsciiUpper c then
      let low := rest.takeWhile isAsciiLower
      let r2 := rest.dropWhile isAsciiLower
      if minLow ≤ low.length && !isWordChar (r2.headD ' ') then
        (⟨c :: low⟩ : String) :: capTokenGo minLow n true r2
      else
        capTokenGo minLow n true rest
    else
      capTokenGo minLow n (isWordChar c) rest

def capTokenScan (minLow : Nat) (l : List Char) : List String :=
  capTokenGo minLow l.length false l

/-- Number of matches of the proper-noun regex (uppercase letter, one or
more lowercase letters, word boundaries) in a sentence. -/
def properNounCount (s : String) : Nat := (capTokenScan 1 s.data).length

/-- Number of matches of the digit-run regex with the global flag; fueled
like the other scanners. -/
def digitRunGo : Nat → List Char → Nat
  | _, [] => 0
  | 0, _ :: _ => 0
  | Nat.succ n, c :: rest =>
    if isAsciiDigit c then 1 + digitRunGo n (rest.dropWhile isAsciiDigit)
    else digitRunGo n rest

def digitRunCount (l : List Char) : Nat := digitRunGo l.length l

/-- The fixed importance vocabulary of `extractKeySentences`, in source order. -/
def importantWords : List String :=
  ["define", "definition", "important", "key", "main", "primary",
   "significant", "crucial", "essential", "means", "refers to",
   "is a", "are a", "includes", "consists of", "theory", "principle",
   "concept", "method", "process", "system", "function", "purpose"]

/-- The vocabulary component of the sentence score: the source iterates over
the vocabulary and adds 3 whenever the lowercased sentence contains the term. -/
def vocabScore (s : String) : ℚ :=
  importantWords.foldl
    (fun sc w => if containsSub (asciiLower s).data w.data then sc + 3 else sc) 0

/-- The position component: early sentences score higher. -/
def posScore (idx : Nat) : ℚ := if idx < 5 then 3 else if idx < 10 then 2 else 0

/-- The length component, from the whitespace-split word count. -/
def lenScore (s : String) : ℚ :=
  if 8 ≤ wordCount s ∧ wordCount s ≤ 25 then 3
  else if 5 ≤ wordCount s ∧ wordCount s ≤ 30 then 1
  else 0

/-- The proper-noun component, `min(properNouns.length * 0.5, 3)`; the
source skips the addition when the match list is null, which adds 0 anyway. -/
def properNounScore (s : String) : ℚ :=
  if properNounCount s = 0 then 0 else min ((properNounCount s : ℚ) / 2) 3

/-- The digit-run penalty: 2 points off for more than three digit runs. -/
def numberPenalty (s : String) : ℚ := if 3 < digitRunCount s.data then 2 else 0

/-- The colon bonus. -/
def colonBonus (s : String) : ℚ := if s.data.contains ':' then 2 else 0

/-- The full importance score of the sentence at index `idx` of the filtered
list, accumulated in source order. -/
def sentenceScore (idx : Nat) (s : String) : ℚ :=
  vocabScore s + posScore idx + lenScore s + properNounScore s - numberPenalty s +
    colonBonus s

/-! ### Stable sorting

The sorts of the source are JavaScript `Array.prototype.sort`, which is
stable; the output of a stable sort is uniquely determined by the
comparator preorder and the input order, so a stable insertion sort is a
faithful model of those sorts and, being structurally recursive, computes
by kernel reduction. -/

/-- Insert `a` before the first element `b` with `le a b`, keeping it
after every earlier element it does not strictly precede. -/
def stInsert (le : α → α → Bool) (a : α) : List α → List α
  | [] => [a]
  | b :: t => if le a b then a :: b :: t else b :: stInsert le a t

/-- Stable insertion sort with comparator `le`. -/
def stableSort (le : α → α → Bool) : List α → List α
  | [] => []
  | a :: t => stInsert le a (stableSort le t)

/-- The scored-sentence list of `extractKeySentences` (sentence, score). -/
def scoredSentences (text : String) : List (String × ℚ) :=
  (splitSentences text).enum.map (fun p => (p.2, sentenceScore p.1 p.2))

/-- Descending stable sort by score, the comparator of the source. -/
def sortedScored (text : String) : List (String × ℚ) :=
  stableSort (fun a b => decide (b.2 ≤ a.2)) (scoredSentences text)

/-- `extractKeySentences`: sort descending, take the top `2 * maxSentences`,
keep the positive scores, truncate to `maxSentences`, return the sentences. -/
def extractKeySentences (text : String) (maxSentences : Nat) : List String :=
  ((((sortedScored text).take (maxSentences * 2)).filter
    (fun p => decide (0 < p.2))).take maxSentences).map (·.1)

/-! ## Key-term extraction (`extractKeyTerms`) -/

/-- The capitalized tokens the term extractor scans for: matches of the
capitalized-word regex requiring at least two lowercase letters. -/
def capTokens (text : String) : List String := capTokenScan 2 text.data

/-- The stop-list of common capitalized words, from the source. -/
def stopWords : List String :=
  ["The", "This", "That", "These", "Those", "There", "Where",
   "When", "What", "Which", "Who", "How", "Why", "Could", "Would",
   "Should", "Must", "May", "Can", "Will", "Shall", "Page"]

/-- The filter on tokens before counting: length above 3 and not stop-listed. -/
def keepTerm (w : String) : Bool := decide (3 < w.length) && !(stopWords.contains w)

/-- Increment the count of `w` in an association list, inserting at the end
on first encounter (JavaScript object keys keep insertion order). -/
def bumpFreq : List (String × Nat) → String → List (String × Nat)
  | [], w => [(w, 1)]
  | (k, n) :: t, w => if k = w then (k, n + 1) :: t else (k, n) :: bumpFreq t w

/-- The frequency map built by the forEach loop of `extractKeyTerms`. -/
def buildFreq : List (String × Nat) → List String → List (String × Nat)
  | acc, [] => acc
  | acc, w :: ws => buildFreq (if keepTerm w then bumpFreq acc w else acc) ws

def freqEntries (text : String) : List (String × Nat) := buildFreq [] (capTokens text)

/-- The entries with frequency at least 2. -/
def eligibleEntries (text : String) : List (String × Nat) :=
  (freqEntries text).filter (fun p => decide (2 ≤ p.2))

/-- Descending stable sort by frequency. -/
def sortedEntries (text : String) : List (String × Nat) :=
  stableSort (fun a b => decide (b.2 ≤ a.2)) (eligibleEntries text)

/-- `extractKeyTerms`: the top `maxTerms` capitalized terms by frequency. -/
def extractKeyTerms (text : String) (maxTerms : Nat) : List String :=
  ((sortedEntries text).take maxTerms).map (·.1)

/-! ## Quiz synthesizer (`generateQuiz`)

A question record with the fields the source objects carry; fill-in-the-blank
questions of the source have no `options` field, modeled as the empty list. -/

structure Question where
  id : String
  qtype : String
  question : String
  correctAnswer : String
  options : List String
deriving DecidableEq, Repr

/-- JavaScript `Array.prototype.join` with a single space. -/
def joinSp (ws : List String) : String := String.intercalate " " ws

/-! ### True/false questions -/

def tfSentences (text : String) : List String :=
  ((splitSentences text).filter
    (fun s => decide (8 ≤ wordCount s) && decide (wordCount s ≤ 25))).take 5

def tfQuestions (text : String) : List Question :=
  (tfSentences text).enum.map
    (fun p => ⟨"tf" ++ toString p.1, "truefalse", jsTrim p.2, "true", ["True", "False"]⟩)

/-! ### The definition-pattern scanner for multiple-choice questions

Hand-compiled from the regex: a capitalized word, up to three further
whitespace-separated capitalized words (greedy, with backtracking),
whitespace, a copula alternative, whitespace, then 10 to 100 characters
other than sentence punctuation (the first whitespace quantifier before the
definition can backtrack when fewer than 10 such characters follow the
maximal whitespace run). -/

/-- One capitalized word of the term pattern: an uppercase letter then a
maximal nonempty run of lowercase letters. -/
def capWordTok : List Char → Option (List Char × List Char)
  | [] => none
  | c :: rest =>
    if isAsciiUpper c then
      if (rest.takeWhile isAsciiLower).isEmpty then none
      else some (c :: rest.takeWhile isAsciiLower, rest.dropWhile isAsciiLower)
    else none

/-- The candidate (term, rest) states of the greedy repetition of up to
`k` further capitalized words, most extensions first: the backtracking
priority order of the regex engine. -/
def termCandidates : List Char → List Char → Nat → List (List Char × List Char)
  | acc, l, 0 => [(acc, l)]
  | acc, l, Nat.succ k =>
    if (l.takeWhile jsWs).isEmpty then [(acc, l)]
    else
      match capWordTok (l.dropWhile jsWs) with
      | some (w, r2) =>
        termCandidates (acc ++ l.takeWhile jsWs ++ w) r2 k ++ [(acc, l)]
      | none => [(acc, l)]

/-- The copula alternatives in source order; the optional-s form tries the
longer spelling first. -/
def copulaAlts : List (List Char) :=
  ["is".data, "are".data, "refers to".data, "means".data, "defines".data, "define".data]

/-- Attempt the definition capture exactly at `tail`: a maximal run of
characters other than sentence punctuation, truncated to 100, succeeding
when at least 10 remain. -/
def defAttempt (tail : List Char) : Option (List Char × List Char) :=
  if 10 ≤ ((tail.takeWhile (fun c => !isSentPunct c)).take 100).length then
    some ((tail.takeWhile (fun c => !isSentPunct c)).take 100,
      tail.drop ((tail.takeWhile (fun c => !isSentPunct c)).take 100).length)
  else none

/-- Backtracking over the whitespace quantifier before the definition:
`ws` is the maximal whitespace run after the copula and `r` what follows;
the quantifier first consumes all of `ws`, then one character fewer, down
to a single character. -/
def defSearch (ws r : List Char) : Nat → Option (List Char × List Char)
  | 0 => none
  | Nat.succ w =>
    match defAttempt (ws.drop (w + 1) ++ r) with
    | some res => some res
    | none => defSearch ws r w

/-- Whitespace then the definition capture, `l` positioned after the copula. -/
def defPartAfter (l : List Char) : Option (List Char × List Char) :=
  if (l.takeWhile jsWs).isEmpty then none
  else defSearch (l.takeWhile jsWs) (l.dropWhile jsWs) (l.takeWhile jsWs).length

/-- Try the copula alternatives in order at `r1`; on success the definition
part must also match, otherwise the next alternative is tried. -/
def copulaSearch : List (List Char) → List Char → Option (List Char × List Char)
  | [], _ => none
  | a :: alts, r1 =>
    if a.isPrefixOf r1 then
      match defPartAfter (r1.drop a.length) with
      | some res => some res
      | none => copulaSearch alts r1
    else copulaSearch alts r1

/-- Whitespace, copula and definition, `l` positioned after the term. -/
def afterTerm (l : List Char) : Option (List Char × List Char) :=
  if (l.takeWhile jsWs).isEmpty then none
  else copulaSearch copulaAlts (l.dropWhile jsWs)

/-- Try each candidate term state in backtracking order. -/
def tryTermList : List (List Char × List Char) → Option (List Char × List Char × List Char)
  | [] => none
  | (term, rest) :: more =>
    match afterTerm rest with
    | some (d, after) => some (term, d, after)
    | none => tryTermList more

/-- Attempt the whole definition pattern at one position. -/
def tryMatchAt (l : List Char) : Option (List Char × List Char × List Char) :=
  match capWordTok l with
  | none => none
  | some (w0, r0) => tryTermList (termCandidates w0 r0 3)

theorem capWordTok_length_lt {l w r : List Char} (h : capWordTok l = some (w, r)) :
    r.length < l.length := by
  match l with
  | [] => simp [capWordTok] at h
  | c :: rest =>
    simp only [capWordTok] at h
    split at h
    · split at h
      · exact absurd h (by simp)
      · simp only [Option.some.injEq, Prod.mk.injEq] at h
        obtain ⟨h1, h2⟩ := h
        subst h2
        have h3 : (rest.dropWhile isAsciiLower).length ≤ rest.length :=
          (List.dropWhile_sublist isAsciiLower).length_le
        simp only [List.length_cons]
        omega
    · exact absurd h (by simp)

theorem termCandidates_length_le {k : Nat} :
    ∀ {acc l : List Char} (p : List Char × List Char),
      p ∈ termCandidates acc l k → p.2.length ≤ l.length := by
  induction k with
  | zero =>
    intro acc l p hp
    simp only [termCandidates, List.mem_singleton] at hp
    subst hp
    exact le_refl _
  | succ k ih =>
    intro acc l p hp
    simp only [termCandidates] at hp
    split at hp
    · simp only [List.mem_singleton] at hp
      subst hp
      exact le_refl _
    · split at hp
      · rename_i w r2 heq
        simp only [List.mem_append, List.mem_singleton] at hp
        rcases hp with hp | hp
        · have h1 := ih p hp
          have h2 : r2.length < (l.dropWhile jsWs).length := capWordTok_length_lt heq
          have h3 : (l.dropWhile jsWs).length ≤ l.length :=
            (List.dropWhile_sublist jsWs).length_le
          omega
        · subst hp
          exact le_refl _
      · simp only [List.mem_singleton] at hp
        subst hp
        exact le_refl _

theorem defAttempt_length_lt {tail d r : List Char} (h : defAttempt tail = some (d, r)) :
    r.length < tail.length := by
  simp only [defAttempt] at h
  split at h
  · rename_i h10
    simp only [Option.some.injEq, Prod.mk.injEq] at h
    obtain ⟨h1, h2⟩ := h
    subst h2
    have ha : (tail.takeWhile (fun c => !isSentPunct c)).length ≤ tail.length :=
      (List.takeWhile_sublist (fun c => !isSentPunct c)).length_le
    have hb := List.length_take 100 (tail.takeWhile (fun c => !isSentPunct c))
    have hd := List.length_drop ((tail.takeWhile (fun c => !isSentPunct c)).take 100).length tail
    omega
  · exact absurd h (by simp)

theorem defSearch_length_lt {ws r d rest : List Char} {k : Nat}
    (h : defSearch ws r k = some (d, rest)) : rest.length < ws.length + r.length := by
  induction k with
  | zero => simp [defSearch] at h
  | succ w ih =>
    simp only [defSearch] at h
    split at h
    · rename_i res heq
      rcases res with ⟨d0, r0⟩
      simp only [Option.some.injEq, Prod.mk.injEq] at h
      obtain ⟨h1, h2⟩ := h
      subst h2
      have h3 := defAttempt_length_lt heq
      have h4 := List.length_drop (w + 1) ws
      simp only [List.length_append] at h3
      omega
    · exact ih h

theorem defPartAfter_length_lt {l d rest : List Char}
    (h : defPartAfter l = some (d, rest)) : rest.length < l.length := by
  simp only [defPartAfter] at h
  split at h
  · exact absurd h (by simp)
  · have h1 := defSearch_length_lt h
    have h2 : (l.takeWhile jsWs).length + (l.dropWhile jsWs).length = l.length := by
      rw [← List.length_append, List.takeWhile_append_dropWhile]
    omega

theorem copulaSearch_length_lt {alts : List (List Char)} {r1 d rest : List Char}
    (h : copulaSearch alts r1 = some (d, rest)) : rest.length ≤ r1.length := by
  induction alts with
  | nil => simp [copulaSearch] at h
  | cons a alts ih =>
    simp only [copulaSearch] at h
    split at h
    · split at h
      · rename_i res heq
        rcases res with ⟨d0, r0⟩
        simp only [Option.some.injEq, Prod.mk.injEq] at h
        obtain ⟨h1, h2⟩ := h
        subst h2
        have h3 := defPartAfter_length_lt heq
        have h4 := List.length_drop a.length r1
        omega
      · exact ih h
    · exact ih h

theorem afterTerm_length_le {l d rest : List Char}
    (h : afterTerm l = some (d, rest)) : rest.length ≤ l.length := by
  simp only [afterTerm] at h
  split at h
  · exact absurd h (by simp)
  · have h1 := copulaSearch_length_lt h
    have h2 : (l.dropWhile jsWs).length ≤ l.length :=
      (List.dropWhile_sublist jsWs).length_le
    omega

theorem tryTermList_length {cands : List (List Char × List Char)}
    {t d after : List Char} {n : Nat}
    (hb : ∀ p ∈ cands, (p.2 : List Char).length ≤ n)
    (h : tryTermList cands = some (t, d, after)) : after.length ≤ n := by
  induction cands with
  | nil => simp [tryTermList] at h
  | cons p more ih =>
    rcases p with ⟨term, rest⟩
    simp only [tryTermList] at h
    split at h
    · rename_i d0 a0 heq
      simp only [Option.some.injEq, Prod.mk.injEq] at h
      obtain ⟨h1, h2, h3⟩ := h
      subst h3
      have h4 := afterTerm_length_le heq
      have h5 := hb ⟨term, rest⟩ (List.mem_cons_self _ _)
      simp only at h5
      omega
    · exact ih (fun q hq => hb q (List.mem_cons_of_mem _ hq)) h

theorem tryMatchAt_length_lt {l t d after : List Char}
    (h : tryMatchAt l = some (t, d, after)) : after.length < l.length := by
  simp only [tryMatchAt] at h
  split at h
  · exact absurd h (by simp)
  · rename_i w0 r0 heq
    have h1 : ∀ p ∈ termCandidates w0 r0 3, (p.2 : List Char).length ≤ r0.length :=
      fun p hp => termCandidates_length_le p hp
    have h2 := tryTermList_length h1 h
    have h3 := capWordTok_length_lt heq
    omega

/-- All matches of the definition pattern, in scan order, as (term capture,
definition capture) pairs; after each match the scan resumes at its end.
Fueled: a successful match consumes at least one character
(`tryMatchAt_length_lt`), so fuel equal to the text length never runs out. -/
def scanDefsGo : Nat → List Char → List (String × String)
  | _, [] => []
  | 0, _ :: _ => []
  | Nat.succ n, c :: rest =>
    match tryMatchAt (c :: rest) with
    | some (t, d, after) => ((⟨t⟩ : String), (⟨d⟩ : String)) :: scanDefsGo n after
    | none => scanDefsGo n rest

def scanDefs (l : List Char) : List (String × String) := scanDefsGo l.length l

/-! ### The Fisher and Yates shuffle

`Math.random` is modeled by a stream `rng` of naturals; at loop index `i`
the source draws a uniform j in the closed range 0..i, modeled as
`rng i % (i + 1)` so that every actual draw corresponds to some stream. -/

def swapIdx (l : List String) (i j : Nat) : List String :=
  match l[i]?, l[j]? with
  | some a, some b => (l.set i b).set j a
  | _, _ => l

def fyLoop (rng : Nat → Nat) : Nat → List String → List String
  | 0, l => l
  | Nat.succ i, l => fyLoop rng i (swapIdx l (i + 1) (rng (i + 1) % (i + 2)))

def fisherYates (rng : Nat → Nat) (l : List String) : List String :=
  fyLoop rng (l.length - 1) l

/-! ### Multiple-choice questions -/

/-- The accepted (term, definition) pairs: captures trimmed, definitions of
fewer than 3 whitespace-split words skipped, the first five kept. -/
def mcqAccepted (text : String) : List (String × String) :=
  (((scanDefs text.data).map (fun p => (jsTrim p.1, jsTrim p.2))).filter
    (fun p => decide (3 ≤ wordCount p.2))).take 5

/-- Build one multiple-choice question: the two half-definition distractors,
the fixed third distractor, and the shuffle of the four options. -/
def mkMcq (rng : Nat → Nat) (i : Nat) (term definition : String) : Question :=
  ⟨"mcq" ++ toString i, "mcq", "What is " ++ term ++ "?", definition,
    fisherYates rng
      [definition,
       joinSp ((jsSplitWs definition).take ((jsSplitWs definition).length / 2)) ++
         " (incorrect)",
       joinSp ((jsSplitWs definition).drop ((jsSplitWs definition).length / 2)) ++
         " (incorrect)",
       "None of the above"]⟩

/-- The multiple-choice list; `rng` supplies each question its random draws. -/
def mcqQuestions (text : String) (rng : Nat → Nat → Nat) : List Question :=
  (mcqAccepted text).enum.map (fun p => mkMcq (rng p.1) p.1 p.2.1 p.2.2)

/-! ### Fill-in-the-blank questions -/

def fibSentences (text : String) : List String :=
  ((splitSentences text).filter
    (fun s => decide (8 ≤ wordCount s) && decide (wordCount s ≤ 20))).take 5

/-- The anchored alphabetic-word test of the source. -/
def isPureAlphaTok (w : String) : Bool := !w.data.isEmpty && w.data.all isAsciiAlpha

/-- The (word, index) candidates of a sentence: tokens longer than 4
characters and purely alphabetic, stably sorted by descending length. -/
def meaningfulWords (words : List String) : List (String × Nat) :=
  stableSort (fun a b => decide (b.1.length ≤ a.1.length))
    ((words.enum.map (fun p => (p.2, p.1))).filter
      (fun p => decide (4 < p.1.length) && isPureAlphaTok p.1))

/-- Build the fill-in-the-blank question of one sentence, when an eligible
word exists: blank the first longest candidate, store the lowercased word
stripped of characters outside the lowercase range. -/
def fibOfSentence (idx : Nat) (sentence : String) : Option Question :=
  match meaningfulWords (jsSplitWs sentence) with
  | [] => none
  | mw :: _ =>
    some ⟨"fib" ++ toString idx, "fillblank",
      joinSp ((jsSplitWs sentence).enum.map
        (fun p => if p.1 = mw.2 then "______" else p.2)),
      ⟨((asciiLower ((jsSplitWs sentence).getD mw.2 "")).data.filter isAsciiLower)⟩, []⟩

def fibQuestions (text : String) : List Question :=
  (fibSentences text).enum.filterMap (fun p => fibOfSentence p.1 p.2)

/-- `generateQuiz`: true/false, then multiple choice, then fill in the
blank, truncated to ten questions. -/
def generateQuiz (text : String) (rng : Nat → Nat → Nat) : List Question :=
  (tfQuestions text ++ mcqQuestions text rng ++ fibQuestions text).take 10

/-! ## Grader for fill-in-the-blank responses -/

/-- The normalization the submit handler applies to free-text input:
lowercase, then delete every character outside the lowercase letters. -/
def normalizeResponse (s : String) : String := ⟨(asciiLower s).data.filter isAsciiLower⟩

/-- The fill-in-the-blank correctness decision of the submit handler. -/
def gradeFillBlank (response correctAnswer : String) : Bool :=
  normalizeResponse response = correctAnswer

/-! ## Binary text salvage (`extractPDFTextRaw`)

The decoded byte buffer is a character list (one character per byte).  The
primary extraction finds the non-greedy BT..ET regions (the dot-all flag
lets the lazy content span lines); within each region it collects the lazy
parenthesized groups, whose dot cannot cross line terminators.  Modeled up
to the point the fallback policy of the claim applies, before the escape
clean-up and the short-result sentinel. -/

/-- The separator the lazy content stops at: a whitespace run then the
letters E and T.  Returns the characters after ET. -/
def sepAtET (m : List Char) : Option (List Char) :=
  if (m.takeWhile jsWs).isEmpty then none
  else
    match m.dropWhile jsWs with
    | 'E' :: 'T' :: rest => some rest
    | _ => none

theorem sepAtET_length_lt {m res : List Char} (h : sepAtET m = some res) :
    res.length < m.length := by
  simp only [sepAtET] at h
  split at h
  · exact absurd h (by simp)
  · rename_i hne
    have h2 : (m.takeWhile jsWs).length + (m.dropWhile jsWs).length = m.length := by
      rw [← List.length_append, List.takeWhile_append_dropWhile]
    have h3 : ¬(m.takeWhile jsWs).length = 0 := by
      intro h0
      exact hne (List.isEmpty_iff_length_eq_zero.mpr h0)
    split at h
    · rename_i rest0 heq
      simp only [Option.some.injEq] at h
      subst h
      have h4 : (m.dropWhile jsWs).length = rest0.length + 2 := by
        rw [heq]; simp
      omega
    · exact absurd h (by simp)

/-- The lazy content search: grow the captured content one character at a
time until the ET separator matches right after it. -/
def contentSearch : List Char → Option (List Char × List Char)
  | [] => none
  | c :: t =>
    match sepAtET (c :: t) with
    | some after => some ([], after)
    | none =>
      match contentSearch t with
      | some (cnt, after) => some (c :: cnt, after)
      | none => none

theorem contentSearch_length_lt {m cnt after : List Char}
    (h : contentSearch m = some (cnt, after)) : after.length < m.length := by
  induction m generalizing cnt with
  | nil => simp [contentSearch] at h
  | cons c t ih =>
    simp only [contentSearch] at h
    split at h
    · rename_i after0 heq
      simp only [Option.some.injEq, Prod.mk.injEq] at h
      obtain ⟨h1, h2⟩ := h
      subst h2
      exact sepAtET_length_lt heq
    · split at h
      · rename_i cnt0 after0 heq
        simp only [Option.some.injEq, Prod.mk.injEq] at h
        obtain ⟨h1, h2⟩ := h
        subst h2
        have := ih heq
        simp only [List.length_cons]
        omega
      · exact absurd h (by simp)

/-- Backtracking over the whitespace quantifier after BT: the quantifier
first consumes the whole maximal whitespace run `ws`, then one character
fewer, down to one; the lazy content search runs from each stop. -/
def btSearchW (ws r : List Char) : Nat → Option (List Char × List Char)
  | 0 => none
  | Nat.succ w =>
    match contentSearch (ws.drop (w + 1) ++ r) with
    | some res => some res
    | none => btSearchW ws r w

theorem btSearchW_length_lt {ws r cnt after : List Char} {k : Nat}
    (h : btSearchW ws r k = some (cnt, after)) : after.length < ws.length + r.length := by
  induction k with
  | zero => simp [btSearchW] at h
  | succ w ih =>
    simp only [btSearchW] at h
    split at h
    · rename_i res heq
      rcases res with ⟨c0, a0⟩
      simp only [Option.some.injEq, Prod.mk.injEq] at h
      obtain ⟨h1, h2⟩ := h
      subst h2
      have h3 := contentSearch_length_lt heq
      have h4 := List.length_drop (w + 1) ws
      simp only [List.length_append] at h3
      omega
    · exact ih h

/-- Attempt a BT region match with `l` positioned right after the letters
BT: whitespace, the lazy content capture, whitespace, ET. -/
def btMatchAfter (l : List Char) : Option (List Char × List Char) :=
  if (l.takeWhile jsWs).isEmpty then none
  else btSearchW (l.takeWhile jsWs) (l.dropWhile jsWs) (l.takeWhile jsWs).length

theorem btMatchAfter_length_lt {l cnt after : List Char}
    (h : btMatchAfter l = some (cnt, after)) : after.length < l.length := by
  simp only [btMatchAfter] at h
  split at h
  · exact absurd h (by simp)
  · have h1 := btSearchW_length_lt h
    have h2 : (l.takeWhile jsWs).length + (l.dropWhile jsWs).length = l.length := by
      rw [← List.length_append, List.takeWhile_append_dropWhile]
    omega

/-- The content captures of all BT..ET regions, in scan order; fueled (a
region match consumes at least one character, `btMatchAfter_length_lt`). -/
def btScanGo : Nat → List Char → List (List Char)
  | _, [] => []
  | 0, _ :: _ => []
  | Nat.succ n, c :: rest =>
    if c = 'B' && rest.headD ' ' = 'T' then
      match btMatchAfter (rest.drop 1) with
      | some (content, after) => content :: btScanGo n after
      | none => btScanGo n rest
    else btScanGo n rest

def btScan (l : List Char) : List (List Char) := btScanGo l.length l

/-- The lazy parenthesized-group capture: the characters to the first
closing parenthesis, failing at a line terminator or the end of input
(the dot here carries no dot-all flag). -/
def parenInner : List Char → Option (List Char × List Char)
  | [] => none
  | c :: t =>
    if c = ')' then some ([], t)
    else if c = '\n' || c = '\r' then none
    else
      match parenInner t with
      | some (inner, after) => some (c :: inner, after)
      | none => none

theorem parenInner_length_lt {l inner after : List Char}
    (h : parenInner l = some (inner, after)) : after.length < l.length := by
  induction l generalizing inner with
  | nil => simp [parenInner] at h
  | cons c t ih =>
    simp only [parenInner] at h
    split at h
    · simp only [Option.some.injEq, Prod.mk.injEq] at h
      obtain ⟨h1, h2⟩ := h
      subst h2
      simp
    · split at h
      · exact absurd h (by simp)
      · split at h
        · rename_i inner0 after0 heq
          simp only [Option.some.injEq, Prod.mk.injEq] at h
          obtain ⟨h1, h2⟩ := h
          subst h2
          have := ih heq
          simp only [List.length_cons]
          omega
        · exact absurd h (by simp)

/-- All parenthesized-group inner captures of one BT content, in order;
fueled (a group consumes at least one character, `parenInner_length_lt`). -/
def parenScanGo : Nat → List Char → List (List Char)
  | _, [] => []
  | 0, _ :: _ => []
  | Nat.succ n, c :: rest =>
    if c = '(' then
      match parenInner rest with
      | some (inner, after) => inner :: parenScanGo n after
      | none => parenScanGo n rest
    else parenScanGo n rest

def parenScan (l : List Char) : List (List Char) := parenScanGo l.length l

/-- The primary extraction result: for each BT region, each parenthesized
group content followed by one space, all concatenated. -/
def primaryText (buffer : List Char) : String :=
  String.join ((btScan buffer).map (fun content =>
    String.join ((parenScan content).map (fun inner => (⟨inner⟩ : String) ++ " "))))

/-- A maximal alphabetic run of length at least 3, the repeated unit of the
fallback pattern. -/
def alphaRun3 (l : List Char) : Option (List Char × List Char) :=
  if 3 ≤ (l.takeWhile isAsciiAlpha).length then
    some (l.takeWhile isAsciiAlpha, l.dropWhile isAsciiAlpha)
  else none

theorem alphaRun3_length_lt {l run r : List Char} (h : alphaRun3 l = some (run, r)) :
    r.length < l.length := by
  simp only [alphaRun3] at h
  split at h
  · rename_i h3
    simp only [Option.some.injEq, Prod.mk.injEq] at h
    obtain ⟨h1, h2⟩ := h
    subst h2
    have ha : (l.takeWhile isAsciiAlpha).length + (l.dropWhile isAsciiAlpha).length = l.length := by
      rw [← List.length_append, List.takeWhile_append_dropWhile]
    omega
  · exact absurd h (by simp)

/-- The greedy repetition of the fallback pattern: keep absorbing a
whitespace run followed by another alphabetic run of length at least 3;
fueled (each absorbed step consumes at least four characters). -/
def readExtGo : Nat → List Char → List Char → List Char × List Char
  | 0, acc, l => (acc, l)
  | Nat.succ n, acc, l =>
    if (l.takeWhile jsWs).isEmpty then (acc, l)
    else
      match alphaRun3 (l.dropWhile jsWs) with
      | some (run, r2) => readExtGo n (acc ++ l.takeWhile jsWs ++ run) r2
      | none => (acc, l)

def readExt (acc l : List Char) : List Char × List Char := readExtGo l.length acc l

/-- All matches of the fallback readable-text pattern, in scan order;
fueled (every match consumes at least three characters). -/
def readScanGo : Nat → List Char → List String
  | _, [] => []
  | 0, _ :: _ => []
  | Nat.succ n, c :: rest =>
    match alphaRun3 (c :: rest) with
    | some (run, r) =>
      (⟨(readExt run r).1⟩ : String) :: readScanGo n (readExt run r).2
    | none => readScanGo n rest

def readScan (l : List Char) : List String := readScanGo l.length l

/-- The pre-clean extraction result of `extractPDFTextRaw`: the primary
BT..ET result, replaced by the joined fallback matches when it is shorter
than 100 characters and the fallback match list is nonempty (a null match
result leaves the primary text in place). -/
def preCleanExtract (buffer : List Char) : String :=
  if (primaryText buffer).length < 100 then
    match readScan buffer with
    | [] => primaryText buffer
    | m :: ms => String.intercalate " " (m :: ms)
  else primaryText buffer

/-! ## Auxiliary lemmas -/

theorem containsSub_iff_countOccAux {hay needle : List Char} :
    containsSub hay needle = true ↔ 1 ≤ countOccAux hay needle := by
  induction hay with
  | nil =>
    simp only [containsSub, countOccAux]
    split <;> simp_all
  | cons c t ih =>
    simp only [containsSub, countOccAux, Bool.or_eq_true]
    by_cases hp : needle.isPrefixOf (c :: t) = true
    · rw [if_pos hp]
      simp only [hp, true_or, true_iff]
      omega
    · rw [if_neg hp]
      simp only [hp, Bool.false_eq_true, false_or, Nat.zero_add]
      exact ih

theorem vocabFold_sum (s : String) : ∀ (ws : List String) (init : ℚ),
    ws.foldl (fun sc w => if containsSub (asciiLower s).data w.data then sc + 3 else sc)
        init =
      init +
        (ws.map (fun w =>
          if containsSub (asciiLower s).data w.data then (3 : ℚ) else 0)).sum := by
  intro ws
  induction ws with
  | nil => intro init; simp
  | cons w ws ih =>
    intro init
    simp only [List.foldl_cons, List.map_cons, List.sum_cons]
    rw [ih]
    split <;> ring

/-! ### Properties of the stable insertion sort -/

theorem stInsert_perm {α : Type} (le : α → α → Bool) (a : α) :
    ∀ (m : List α), (stInsert le a m).Perm (a :: m) := by
  intro m
  induction m with
  | nil => exact List.Perm.refl _
  | cons b t ih =>
    simp only [stInsert]
    split
    · exact List.Perm.refl _
    · exact (ih.cons b).trans (List.Perm.swap a b t)

theorem stableSort_perm {α : Type} (le : α → α → Bool) :
    ∀ (l : List α), (stableSort le l).Perm l := by
  intro l
  induction l with
  | nil => exact List.Perm.refl _
  | cons a t ih =>
    exact (stInsert_perm le a (stableSort le t)).trans (ih.cons a)

theorem pairwise_stInsert {α : Type} {le : α → α → Bool}
    (trans : ∀ a b c : α, le a b = true → le b c = true → le a c = true)
    (total : ∀ a b : α, le a b = true ∨ le b a = true) (a : α) :
    ∀ (m : List α), m.Pairwise (fun x y => le x y = true) →
      (stInsert le a m).Pairwise (fun x y => le x y = true) := by
  intro m
  induction m with
  | nil => intro _; simp [stInsert]
  | cons b t ih =>
    intro hp
    rw [List.pairwise_cons] at hp
    obtain ⟨hb, ht⟩ := hp
    simp only [stInsert]
    split
    · rename_i hab
      rw [List.pairwise_cons]
      refine ⟨?_, ?_⟩
      · intro x hx
        rcases List.mem_cons.mp hx with hx | hx
        · subst hx; exact hab
        · exact trans a b x hab (hb x hx)
      · rw [List.pairwise_cons]
        exact ⟨hb, ht⟩
    · rename_i hab
      rw [List.pairwise_cons]
      refine ⟨?_, ih ht⟩
      intro x hx
      have hx2 : x ∈ a :: t := (stInsert_perm le a t).mem_iff.mp hx
      rcases List.mem_cons.mp hx2 with hx2 | hx2
      · subst hx2
        rcases total x b with h | h
        · exact absurd h hab
        · exact h
      · exact hb x hx2

theorem stableSort_pairwise {α : Type} {le : α → α → Bool}
    (trans : ∀ a b c : α, le a b = true → le b c = true → le a c = true)
    (total : ∀ a b : α, le a b = true ∨ le b a = true) :
    ∀ (l : List α), (stableSort le l).Pairwise (fun x y => le x y = true) := by
  intro l
  induction l with
  | nil => exact List.Pairwise.nil
  | cons a t ih => exact pairwise_stInsert trans total a _ ih

theorem sublist_stInsert {α : Type} (le : α → α → Bool) (a : α) :
    ∀ (m : List α), m.Sublist (stInsert le a m) := by
  intro m
  induction m with
  | nil => exact List.nil_sublist _
  | cons b t ih =>
    simp only [stInsert]
    split
    · exact List.Sublist.cons a (List.Sublist.refl _)
    · exact List.Sublist.cons₂ b ih

theorem pair_sublist_stInsert {α : Type} {le : α → α → Bool} {x y : α}
    (hxy : le x y = true) :
    ∀ (m : List α), y ∈ m → List.Sublist [x, y] (stInsert le x m) := by
  intro m
  induction m with
  | nil => intro h; simp at h
  | cons b t ih =>
    intro hy
    simp only [stInsert]
    split
    · exact List.Sublist.cons₂ x (List.singleton_sublist.mpr hy)
    · rename_i hxb
      rcases List.mem_cons.mp hy with hyb | hyt
      · subst hyb
        exact absurd hxy hxb
      · exact List.Sublist.cons b (ih hyt)

theorem pair_sublist_stableSort {α : Type} {le : α → α → Bool} {x y : α}
    (hxy : le x y = true) :
    ∀ (l : List α), List.Sublist [x, y] l → List.Sublist [x, y] (stableSort le l) := by
  intro l
  induction l with
  | nil => intro h; exact absurd h (by simp)
  | cons a t ih =>
    intro h
    cases h with
    | cons _ h1 =>
      exact (ih h1).trans (sublist_stInsert le a _)
    | cons₂ _ h1 =>
      have hy : y ∈ stableSort le t :=
        (stableSort_perm le t).mem_iff.mpr (List.singleton_sublist.mp h1)
      exact pair_sublist_stInsert hxy _ hy

/-! ### The shuffle permutes its input -/

theorem count_set_aux : ∀ (l : List String) (i : Nat) (b x : String),
    l[i]? = some x → ∀ a : String,
      (l.set i b).count a + (if x == a then 1 else 0) =
        l.count a + (if b == a then 1 else 0) := by
  intro l
  induction l with
  | nil => intro i b x hx; simp at hx
  | cons c t ih =>
    intro i b x hx a
    cases i with
    | zero =>
      simp only [List.getElem?_cons_zero, Option.some.injEq] at hx
      subst hx
      simp only [List.set_cons_zero, List.count_cons]
      split <;> split <;> omega
    | succ i =>
      simp only [List.getElem?_cons_succ] at hx
      simp only [List.set_cons_succ, List.count_cons]
      have h1 := ih i b x hx a
      split <;> omega

theorem swapIdx_perm (l : List String) (i j : Nat) : (swapIdx l i j).Perm l := by
  unfold swapIdx
  split
  · rename_i a b hi hj
    have hilen : i < l.length := by
      rcases List.getElem?_eq_some.mp hi with ⟨h, _⟩
      exact h
    have hy : (l.set i b)[j]? = some b := by
      by_cases hij : i = j
      · subst hij
        exact List.getElem?_set_self hilen
      · rw [List.getElem?_set_ne hij]
        exact hj
    rw [List.perm_iff_count]
    intro x
    have s1 := count_set_aux l i b a hi x
    have s2 := count_set_aux (l.set i b) j a b hy x
    omega
  · exact List.Perm.refl l

theorem fyLoop_perm (rng : Nat → Nat) : ∀ (k : Nat) (l : List String),
    (fyLoop rng k l).Perm l := by
  intro k
  induction k with
  | zero => intro l; exact List.Perm.refl l
  | succ i ih =>
    intro l
    exact (ih _).trans (swapIdx_perm _ _ _)

theorem fisherYates_perm (rng : Nat → Nat) (l : List String) :
    (fisherYates rng l).Perm l :=
  fyLoop_perm rng _ l

/-! ### Frequency-map lemmas for the key-term extractor -/

/-- Count stored for a key of the association list, zero when absent. -/
def lookupCount : List (String × Nat) → String → Nat
  | [], _ => 0
  | (k, n) :: t, w => if k = w then n else lookupCount t w

theorem lookupCount_bumpFreq_self (acc : List (String × Nat)) (w : String) :
    lookupCount (bumpFreq acc w) w = lookupCount acc w + 1 := by
  induction acc with
  | nil => simp [bumpFreq, lookupCount]
  | cons p t ih =>
    rcases p with ⟨k, n⟩
    by_cases hk : k = w
    · subst hk
      simp [bumpFreq, lookupCount]
    · simp [bumpFreq, lookupCount, hk, ih]

theorem lookupCount_bumpFreq_ne (acc : List (String × Nat)) {v w : String} (h : v ≠ w) :
    lookupCount (bumpFreq acc v) w = lookupCount acc w := by
  induction acc with
  | nil => simp [bumpFreq, lookupCount, fun hh => h hh]
  | cons p t ih =>
    rcases p with ⟨k, n⟩
    by_cases hk : k = v
    · subst hk
      simp only [bumpFreq, if_pos rfl, lookupCount]
      rw [if_neg h, if_neg h]
    · simp [bumpFreq, lookupCount, hk, ih]

theorem lookupCount_buildFreq : ∀ (ws : List String) (acc : List (String × Nat)) (w : String),
    lookupCount (buildFreq acc ws) w =
      lookupCount acc w + (if keepTerm w then ws.count w else 0) := by
  intro ws
  induction ws with
  | nil => intro acc w; simp [buildFreq]
  | cons u ws ih =>
    intro acc w
    simp only [buildFreq]
    rw [ih]
    by_cases hu : u = w
    · subst hu
      by_cases hk : keepTerm u = true
      · simp [hk, lookupCount_bumpFreq_self, List.count_cons_self]
        omega
      · simp only [Bool.not_eq_true] at hk
        simp [hk, List.count_cons_self]
    · have hcount : (u :: ws).count w = ws.count w := by
        rw [List.count_cons]
        simp [hu]
      rw [hcount]
      by_cases hk : keepTerm u = true
      · simp [hk, lookupCount_bumpFreq_ne _ hu]
      · simp only [Bool.not_eq_true] at hk
        simp [hk]

theorem fst_bumpFreq (acc : List (String × Nat)) (v : String) :
    (bumpFreq acc v).map Prod.fst =
      if v ∈ acc.map Prod.fst then acc.map Prod.fst else acc.map Prod.fst ++ [v] := by
  induction acc with
  | nil => simp [bumpFreq]
  | cons p t ih =>
    rcases p with ⟨k, n⟩
    by_cases hk : k = v
    · subst hk
      simp [bumpFreq]
    · have hne : v ≠ k := fun hh => hk hh.symm
      simp only [bumpFreq, if_neg hk, List.map_cons, ih]
      by_cases hv : v ∈ t.map Prod.fst
      · simp [hv, hne]
      · simp [hv, hne]

theorem nodup_fst_bumpFreq {acc : List (String × Nat)} (h : (acc.map Prod.fst).Nodup)
    (v : String) : ((bumpFreq acc v).map Prod.fst).Nodup := by
  rw [fst_bumpFreq]
  by_cases hv : v ∈ acc.map Prod.fst
  · simpa [hv] using h
  · rw [if_neg hv]
    exact h.append (List.nodup_singleton v) (by simpa using hv)

theorem nodup_fst_buildFreq : ∀ (ws : List String) (acc : List (String × Nat)),
    (acc.map Prod.fst).Nodup → ((buildFreq acc ws).map Prod.fst).Nodup := by
  intro ws
  induction ws with
  | nil => intro acc h; exact h
  | cons u ws ih =>
    intro acc h
    simp only [buildFreq]
    by_cases hk : keepTerm u = true
    · simp only [hk, if_true]
      exact ih _ (nodup_fst_bumpFreq h u)
    · simp only [Bool.not_eq_true] at hk
      simp only [hk, Bool.false_eq_true, if_false]
      exact ih _ h

theorem mem_buildFreq_keep : ∀ (ws : List String) (acc : List (String × Nat))
    (w : String) (n : Nat), (w, n) ∈ buildFreq acc ws →
      w ∈ acc.map Prod.fst ∨ keepTerm w = true := by
  intro ws
  induction ws with
  | nil =>
    intro acc w n h
    simp only [buildFreq] at h
    exact Or.inl (List.mem_map_of_mem Prod.fst h)
  | cons u ws ih =>
    intro acc w n h
    simp only [buildFreq] at h
    by_cases hk : keepTerm u = true
    · rw [if_pos hk] at h
      rcases ih _ w n h with hm | hm
      · rw [fst_bumpFreq] at hm
        by_cases hv : u ∈ acc.map Prod.fst
        · rw [if_pos hv] at hm
          exact Or.inl hm
        · rw [if_neg hv] at hm
          rcases List.mem_append.mp hm with hm | hm
          · exact Or.inl hm
          · simp only [List.mem_singleton] at hm
            subst hm
            exact Or.inr hk
      · exact Or.inr hm
    · simp only [Bool.not_eq_true] at hk
      rw [hk] at h
      simp only [Bool.false_eq_true, if_false] at h
      exact ih _ w n h

theorem lookupCount_of_mem : ∀ (l : List (String × Nat)), (l.map Prod.fst).Nodup →
    ∀ (w : String) (n : Nat), (w, n) ∈ l → lookupCount l w = n := by
  intro l
  induction l with
  | nil => intro _ w n h; simp at h
  | cons p t ih =>
    rcases p with ⟨k, m⟩
    intro hnd w n h
    simp only [List.map_cons, List.nodup_cons] at hnd
    rcases List.mem_cons.mp h with h0 | h0
    · rw [Prod.mk.injEq] at h0
      obtain ⟨h1, h2⟩ := h0
      subst h1
      subst h2
      simp [lookupCount]
    · have hkw : k ≠ w := by
        intro hkw
        subst hkw
        exact hnd.1 (List.mem_map_of_mem Prod.fst h0)
      simp only [lookupCount, if_neg hkw]
      exact ih hnd.2 w n h0

/-! ### Character lemmas for the lowercase normalization -/

theorem char_le_iff_toNat {a b : Char} : a ≤ b ↔ a.toNat ≤ b.toNat := Iff.rfl

theorem toNat_charOfNat_valid {n : Nat} (h : n < 55296) : (Char.ofNat n).toNat = n := by
  unfold Char.ofNat
  rw [dif_pos (Or.inl (by omega))]
  rfl

theorem isAsciiLower_lowerChar {c : Char} (h : isAsciiAlpha c = true) :
    isAsciiLower (lowerChar c) = true := by
  by_cases hu : isAsciiUpper c = true
  · have h1 : 65 ≤ c.toNat ∧ c.toNat ≤ 90 := by
      unfold isAsciiUpper at hu
      rw [Bool.and_eq_true, decide_eq_true_eq, decide_eq_true_eq] at hu
      exact ⟨char_le_iff_toNat.mp hu.1, char_le_iff_toNat.mp hu.2⟩
    unfold lowerChar
    rw [if_pos hu]
    have h2 : (Char.ofNat (c.toNat + 32)).toNat = c.toNat + 32 :=
      toNat_charOfNat_valid (by omega)
    unfold isAsciiLower
    rw [Bool.and_eq_true, decide_eq_true_eq, decide_eq_true_eq]
    have ha : ('a' : Char).toNat = 97 := rfl
    have hz : ('z' : Char).toNat = 122 := rfl
    constructor
    · rw [char_le_iff_toNat, ha, h2]
      omega
    · rw [char_le_iff_toNat, hz, h2]
      omega
  · have hl : isAsciiLower c = true := by
      unfold isAsciiAlpha at h
      rw [Bool.or_eq_true] at h
      tauto
    unfold lowerChar
    rw [if_neg hu]
    exact hl

theorem normalized_alpha_word {w : String} (hall : w.data.all isAsciiAlpha = true) :
    ((asciiLower w).data.filter isAsciiLower).length = w.length ∧
      ((asciiLower w).data.filter isAsciiLower).all isAsciiLower = true := by
  have hdata : (asciiLower w).data = w.data.map lowerChar := rfl
  rw [List.all_eq_true] at hall
  have hfix : (w.data.map lowerChar).filter isAsciiLower = w.data.map lowerChar := by
    rw [List.filter_eq_self]
    intro a ha
    rcases List.mem_map.mp ha with ⟨c, hc, hac⟩
    subst hac
    exact isAsciiLower_lowerChar (hall c hc)
  constructor
  · rw [hdata, hfix, List.length_map]
    rfl
  · rw [hdata, hfix, List.all_eq_true]
    intro a ha
    rcases List.mem_map.mp ha with ⟨c, hc, hac⟩
    subst hac
    exact isAsciiLower_lowerChar (hall c hc)

/-! ### The fallback scan finds a match exactly when a three-letter run exists -/

theorem alphaRun3_eq_none_iff (l : List Char) :
    alphaRun3 l = none ↔ (l.takeWhile isAsciiAlpha).length < 3 := by
  unfold alphaRun3
  split
  · rename_i h3
    constructor
    · intro h; exact absurd h (by simp)
    · intro h; omega
  · rename_i h3
    constructor
    · intro _; omega
    · intro _; rfl

theorem takeWhile_alpha_three {a b c : Char} {r : List Char} :
    3 ≤ ((a :: b :: c :: r).takeWhile isAsciiAlpha).length ↔
      (isAsciiAlpha a && isAsciiAlpha b && isAsciiAlpha c) = true := by
  by_cases ha : isAsciiAlpha a = true
  · by_cases hb : isAsciiAlpha b = true
    · by_cases hc : isAsciiAlpha c = true
      · simp [List.takeWhile_cons, ha, hb, hc]
      · simp [List.takeWhile_cons, ha, hb, hc]
    · simp [List.takeWhile_cons, ha, hb]
  · simp [List.takeWhile_cons, ha]

theorem readScan_eq_nil_iff : ∀ (l : List Char), readScan l = [] ↔ hasAlphaRun3 l = false := by
  intro l
  induction l with
  | nil => exact ⟨fun _ => rfl, fun _ => rfl⟩
  | cons ch rest ih =>
    rcases rest with _ | ⟨b, rest1⟩
    · have halpha : alphaRun3 [ch] = none := by
        rw [alphaRun3_eq_none_iff]
        have hle : (List.takeWhile isAsciiAlpha [ch]).length ≤ ([ch] : List Char).length :=
          (List.takeWhile_sublist isAsciiAlpha).length_le
        simp only [List.length_cons, List.length_nil] at hle
        omega
      have h1 : readScan [ch] = [] := by
        simp only [readScan, List.length_cons, List.length_nil, readScanGo, halpha]
      exact ⟨fun _ => rfl, fun _ => h1⟩
    · rcases rest1 with _ | ⟨c2, rest2⟩
      · have halpha : alphaRun3 [ch, b] = none := by
          rw [alphaRun3_eq_none_iff]
          have hle : (List.takeWhile isAsciiAlpha [ch, b]).length ≤ ([ch, b] : List Char).length :=
            (List.takeWhile_sublist isAsciiAlpha).length_le
          simp only [List.length_cons, List.length_nil] at hle
          omega
        have h1 : readScan [ch, b] = readScan [b] := by
          simp only [readScan, List.length_cons, List.length_nil, readScanGo, halpha]
        have h2 : readScan [b] = [] := ih.mpr rfl
        rw [h1, h2]
        exact ⟨fun _ => rfl, fun _ => rfl⟩
      · cases halpha : alphaRun3 (ch :: b :: c2 :: rest2) with
        | some p =>
          obtain ⟨run, r⟩ := p
          have h3 : 3 ≤ ((ch :: b :: c2 :: rest2).takeWhile isAsciiAlpha).length := by
            rcases Nat.lt_or_ge
              ((ch :: b :: c2 :: rest2).takeWhile isAsciiAlpha).length 3 with hlt | hge
            · have hnone := (alphaRun3_eq_none_iff _).mpr hlt
              rw [hnone] at halpha
              exact absurd halpha (by simp)
            · exact hge
          have hfirst : (isAsciiAlpha ch && isAsciiAlpha b && isAsciiAlpha c2) = true :=
            takeWhile_alpha_three.mp h3
          have h1 : readScan (ch :: b :: c2 :: rest2) =
              (⟨(readExt run r).1⟩ : String) ::
                readScanGo (b :: c2 :: rest2).length (readExt run r).2 := by
            simp only [readScan, List.length_cons, readScanGo, halpha]
          constructor
          · intro hnil
            rw [h1] at hnil
            exact absurd hnil (by simp)
          · intro hfalse
            simp only [hasAlphaRun3, hfirst, Bool.true_or, Bool.true_eq_false] at hfalse
        | none =>
          have h3 := (alphaRun3_eq_none_iff _).mp halpha
          have hfirst : (isAsciiAlpha ch && isAsciiAlpha b && isAsciiAlpha c2) = false := by
            rcases Bool.eq_false_or_eq_true
              (isAsciiAlpha ch && isAsciiAlpha b && isAsciiAlpha c2) with h | h
            · have h5 : 3 ≤ ((ch :: b :: c2 :: rest2).takeWhile isAsciiAlpha).length :=
                takeWhile_alpha_three.mpr h
              omega
            · exact h
          have h1 : readScan (ch :: b :: c2 :: rest2) = readScan (b :: c2 :: rest2) := by
            simp only [readScan, List.length_cons, readScanGo, halpha]
          have h4 : hasAlphaRun3 (ch :: b :: c2 :: rest2) = hasAlphaRun3 (b :: c2 :: rest2) := by
            simp only [hasAlphaRun3, hfirst, Bool.false_or]
          rw [h1, h4]
          exact ih

theorem mkMcq_options (rng : Nat → Nat) (i : Nat) (term definition : String) :
    (mkMcq rng i term definition).options.length = 4 ∧
      (mkMcq rng i term definition).correctAnswer ∈ (mkMcq rng i term definition).options := by
  unfold mkMcq
  constructor
  · rw [(fisherYates_perm rng _).length_eq]
    rfl
  · exact ((fisherYates_perm rng _).mem_iff).mpr (List.mem_cons_self _ _)

/-! ## The claims -/

/-- C3: a split candidate is retained by the sentence filter exactly when
its whitespace-split word count is at least 3, it contains a run of 3
consecutive ASCII letters, its length lies strictly between 20 and 500,
and its digit-character count is under half its length; every candidate
failing any condition is discarded. -/
theorem splitSentences_filter_iff (text s : String) :
    s ∈ splitSentences text ↔
      s ∈ trimmedCandidates text ∧ 3 ≤ wordCount s ∧ hasAlphaRun3 s.data = true ∧
        20 < s.length ∧ s.length < 500 ∧ 2 * digitCount s < s.length := by
  unfold splitSentences goodSentence
  rw [List.mem_filter]
  simp only [Bool.and_eq_true, decide_eq_true_eq, and_assoc]

/-- C1 (amended): the vocabulary component of the sentence score adds 3
points for every vocabulary term that occurs at least once in the
lowercased sentence (case-insensitive substring), independent of how many
times the term occurs. -/
theorem vocab_score_per_term_presence (s : String) :
    vocabScore s =
      (importantWords.map (fun w =>
        if 1 ≤ countOcc (asciiLower s) w then (3 : ℚ) else 0)).sum := by
  unfold vocabScore
  rw [vocabFold_sum, zero_add]
  congr 1
  apply List.map_congr_left
  intro w _
  by_cases hc : containsSub (asciiLower s).data w.data = true
  · rw [if_pos hc,
      if_pos (show 1 ≤ countOcc (asciiLower s) w from containsSub_iff_countOccAux.mp hc)]
  · rw [if_neg hc,
      if_neg (show ¬1 ≤ countOcc (asciiLower s) w from
        fun hcnt => hc (containsSub_iff_countOccAux.mpr hcnt))]

/-- C1 counterexample: a sentence containing the vocabulary term `theory`
twice receives 3 points from the vocabulary component, not 3 per
occurrence (which would give 6). -/
theorem vocab_score_not_per_occurrence :
    "theory" ∈ importantWords ∧
    countOcc (asciiLower "zz theory qq theory zz") "theory" = 2 ∧
    vocabScore "zz theory qq theory zz" = 3 ∧
    (importantWords.map (fun w =>
      (3 : ℚ) * countOcc (asciiLower "zz theory qq theory zz") w)).sum = 6 ∧
    (3 : ℚ) ≠ 6 := by
  refine ⟨by decide, by decide, by with_unfolding_all rfl,
    by with_unfolding_all rfl, by norm_num⟩

/-- C6: `extractKeySentences` returns at most `N` sentences, each the
sentence of a positively scored pair, computed by the descending stable
sort, the top `2 * N` slice, the positive-score filter and the truncation
to `N`. -/
theorem extractKeySentences_top_positive (text : String) (N : Nat) :
    extractKeySentences text N =
      ((((sortedScored text).take (N * 2)).filter
        (fun p => decide (0 < p.2))).take N).map (·.1) ∧
    (sortedScored text).Pairwise (fun a b => b.2 ≤ a.2) ∧
    (sortedScored text).Perm (scoredSentences text) ∧
    (extractKeySentences text N).length ≤ N ∧
    ∀ s ∈ extractKeySentences text N,
      ∃ p ∈ scoredSentences text, p.1 = s ∧ 0 < p.2 := by
  refine ⟨rfl, ?_, stableSort_perm _ _, ?_, ?_⟩
  · have htrans : ∀ a b c : String × ℚ,
        (fun a b : String × ℚ => decide (b.2 ≤ a.2)) a b = true →
        (fun a b : String × ℚ => decide (b.2 ≤ a.2)) b c = true →
        (fun a b : String × ℚ => decide (b.2 ≤ a.2)) a c = true := by
      intro a b c hab hbc
      exact decide_eq_true (le_trans (of_decide_eq_true hbc) (of_decide_eq_true hab))
    have htotal : ∀ a b : String × ℚ,
        (fun a b : String × ℚ => decide (b.2 ≤ a.2)) a b = true ∨
        (fun a b : String × ℚ => decide (b.2 ≤ a.2)) b a = true := by
      intro a b
      rcases le_total a.2 b.2 with h | h
      · exact Or.inr (decide_eq_true h)
      · exact Or.inl (decide_eq_true h)
    exact (stableSort_pairwise htrans htotal (scoredSentences text)).imp
      (fun h => of_decide_eq_true h)
  · unfold extractKeySentences
    rw [List.length_map]
    exact List.length_take_le _ _
  · intro s hs
    unfold extractKeySentences at hs
    rw [List.mem_map] at hs
    obtain ⟨p, hp, hps⟩ := hs
    have hp1 := List.mem_of_mem_take hp
    rw [List.mem_filter] at hp1
    obtain ⟨hp2, hp3⟩ := hp1
    have hp4 : p ∈ sortedScored text := List.mem_of_mem_take hp2
    have hp5 : p ∈ scoredSentences text := by
      unfold sortedScored at hp4
      exact (stableSort_perm _ _).mem_iff.mp hp4
    exact ⟨p, hp5, hps, of_decide_eq_true hp3⟩

def c6Text : String :=
  "Osmosis is the movement of water molecules across a membrane going to places. The quick brown fox jumps over the lazy dog today my friend. Short bad one."

def c6Sent : String :=
  "Osmosis is the movement of water molecules across a membrane going to places"

set_option maxRecDepth 100000 in
theorem extractKeySentences_top_positive_witness :
    (extractKeySentences c6Text 10).length ≤ 10 ∧
    ∃ p ∈ scoredSentences c6Text, p.1 = c6Sent ∧ 0 < p.2 :=
  ⟨(extractKeySentences_top_positive c6Text 10).2.2.2.1,
   (extractKeySentences_top_positive c6Text 10).2.2.2.2 c6Sent
     (of_decide_eq_true (by with_unfolding_all rfl))⟩

/-- C7: every returned key term has frequency at least 2 among the
capitalized tokens of the text, length above 3 and is not stop-listed; at
most `M` terms are returned, by descending frequency, with tied entries
kept in first-encountered order. -/
theorem extractKeyTerms_spec (text : String) (M : Nat) :
    (extractKeyTerms text M).length ≤ M ∧
    (∀ t ∈ extractKeyTerms text M,
      3 < t.length ∧ t ∉ stopWords ∧ 2 ≤ (capTokens text).count t) ∧
    (sortedEntries text).Pairwise (fun a b => b.2 ≤ a.2) ∧
    (∀ x y : String × Nat, List.Sublist [x, y] (eligibleEntries text) → x.2 = y.2 →
      List.Sublist [x, y] (sortedEntries text)) ∧
    extractKeyTerms text M = ((sortedEntries text).take M).map (·.1) := by
  have htrans : ∀ a b c : String × Nat,
      (fun a b : String × Nat => decide (b.2 ≤ a.2)) a b = true →
      (fun a b : String × Nat => decide (b.2 ≤ a.2)) b c = true →
      (fun a b : String × Nat => decide (b.2 ≤ a.2)) a c = true := by
    intro a b c hab hbc
    exact decide_eq_true (Nat.le_trans (of_decide_eq_true hbc) (of_decide_eq_true hab))
  have htotal : ∀ a b : String × Nat,
      (fun a b : String × Nat => decide (b.2 ≤ a.2)) a b = true ∨
      (fun a b : String × Nat => decide (b.2 ≤ a.2)) b a = true := by
    intro a b
    rcases Nat.le_total a.2 b.2 with h | h
    · exact Or.inr (decide_eq_true h)
    · exact Or.inl (decide_eq_true h)
  refine ⟨?_, ?_, ?_, ?_, rfl⟩
  · unfold extractKeyTerms
    rw [List.length_map]
    exact List.length_take_le _ _
  · intro t ht
    unfold extractKeyTerms at ht
    rw [List.mem_map] at ht
    obtain ⟨p, hp, hpt⟩ := ht
    have hp1 : p ∈ sortedEntries text := List.mem_of_mem_take hp
    have hp2 : p ∈ eligibleEntries text := by
      unfold sortedEntries at hp1
      exact (stableSort_perm _ _).mem_iff.mp hp1
    unfold eligibleEntries at hp2
    rw [List.mem_filter] at hp2
    obtain ⟨hp3, hp4⟩ := hp2
    rcases p with ⟨w, n⟩
    subst hpt
    have hkeep : keepTerm w = true := by
      rcases mem_buildFreq_keep (capTokens text) [] w n hp3 with hm | hm
      · simp at hm
      · exact hm
    have hcount : (capTokens text).count w = n := by
      have hnd : ((freqEntries text).map Prod.fst).Nodup :=
        nodup_fst_buildFreq (capTokens text) [] (by simp)
      have hlook := lookupCount_of_mem (freqEntries text) hnd w n hp3
      have hbuild := lookupCount_buildFreq (capTokens text) [] w
      rw [hkeep] at hbuild
      simp only [lookupCount, if_true, Nat.zero_add] at hbuild
      unfold freqEntries at hlook
      rw [hbuild] at hlook
      exact hlook
    unfold keepTerm at hkeep
    rw [Bool.and_eq_true, decide_eq_true_eq, Bool.not_eq_true'] at hkeep
    refine ⟨hkeep.1, ?_, ?_⟩
    · intro hmem
      have : stopWords.contains w = true := List.elem_eq_true_of_mem hmem
      rw [hkeep.2] at this
      exact Bool.false_ne_true this
    · simp only at hp4
      rw [hcount]
      exact of_decide_eq_true hp4
  · exact (stableSort_pairwise htrans htotal (eligibleEntries text)).imp
      (fun h => of_decide_eq_true h)
  · intro x y hsub hxy
    exact pair_sublist_stableSort (decide_eq_true (Nat.le_of_eq hxy.symm)) _ hsub

def c7Text : String :=
  "Alpha and Beta with Alpha again and Beta again and Gamma once only here"

theorem extractKeyTerms_spec_witness :
    (3 < ("Alpha" : String).length ∧ "Alpha" ∉ stopWords ∧
      2 ≤ (capTokens c7Text).count "Alpha") ∧
    List.Sublist [(("Alpha" : String), 2), (("Beta" : String), 2)] (sortedEntries c7Text) :=
  ⟨(extractKeyTerms_spec c7Text 15).2.1 "Alpha" (by decide),
   (extractKeyTerms_spec c7Text 15).2.2.2.1 ("Alpha", 2) ("Beta", 2) (by decide) rfl⟩

/-- C2 (amended): every multiple-choice question has exactly 4 options and
at least one option equal to the stored correct answer; a crafted
definition can make a distractor coincide with the correct answer, so
exactly one equal option does not hold in general. -/
theorem mcq_options_four_and_mem (text : String) (rng : Nat → Nat → Nat) :
    ∀ q ∈ mcqQuestions text rng,
      q.options.length = 4 ∧ q.correctAnswer ∈ q.options := by
  intro q hq
  unfold mcqQuestions at hq
  rw [List.mem_map] at hq
  obtain ⟨p, _, hq⟩ := hq
  subst hq
  exact mkMcq_options _ _ _ _

def c2Text : String := "Osmosis is the movement of water molecules across a membrane."

def c2Q : Question := (mcqQuestions c2Text (fun _ _ => 0)).headD ⟨"", "", "", "", []⟩

theorem mcq_options_four_and_mem_witness :
    c2Q.options.length = 4 ∧ c2Q.correctAnswer ∈ c2Q.options :=
  mcq_options_four_and_mem c2Text (fun _ _ => 0) c2Q (by decide)

def c2BadQ : Question :=
  (mcqQuestions "Foo is None of the above" (fun _ _ => 0)).headD ⟨"", "", "", "", []⟩

/-- C2 counterexample: on this input the produced multiple-choice question
has 4 options but two of them equal the stored correct answer (the fixed
distractor None of the above coincides with the captured definition), so
exactly one option equal to the correct answer fails. -/
theorem mcq_exactly_one_fails :
    c2BadQ ∈ mcqQuestions "Foo is None of the above" (fun _ _ => 0) ∧
    c2BadQ.options.length = 4 ∧
    c2BadQ.options.count c2BadQ.correctAnswer = 2 :=
  ⟨by decide, by decide, by decide⟩

/-- C4: the generated quiz is the concatenation of the true/false list,
the multiple-choice list and the fill-in-the-blank list, each capped at 5,
truncated to the first 10 in that order. -/
theorem generateQuiz_concat_caps (text : String) (rng : Nat → Nat → Nat) :
    generateQuiz text rng =
      (tfQuestions text ++ mcqQuestions text rng ++ fibQuestions text).take 10 ∧
    (generateQuiz text rng).length ≤ 10 ∧
    (tfQuestions text).length ≤ 5 ∧
    (mcqQuestions text rng).length ≤ 5 ∧
    (fibQuestions text).length ≤ 5 := by
  refine ⟨rfl, List.length_take_le _ _, ?_, ?_, ?_⟩
  · unfold tfQuestions
    rw [List.length_map, List.enum_length]
    exact List.length_take_le _ _
  · unfold mcqQuestions
    rw [List.length_map, List.enum_length]
    exact List.length_take_le _ _
  · unfold fibQuestions
    have h1 := List.length_filterMap_le
      (fun p : Nat × String => fibOfSentence p.1 p.2) (fibSentences text).enum
    rw [List.enum_length] at h1
    have h2 : (fibSentences text).length ≤ 5 := List.length_take_le _ _
    omega

/-- C5: every true/false question stores the correct answer `true` with
options True and False; no question whose correct answer is `false` is
ever produced. -/
theorem tf_correct_always_true (text : String) :
    ∀ q ∈ tfQuestions text,
      q.correctAnswer = "true" ∧ q.options = ["True", "False"] ∧
        q.correctAnswer ≠ "false" := by
  intro q hq
  unfold tfQuestions at hq
  rw [List.mem_map] at hq
  obtain ⟨p, _, hq⟩ := hq
  subst hq
  exact ⟨rfl, rfl, show ("true" : String) ≠ "false" by decide⟩

def c5Text : String :=
  "The quick brown fox jumps over the lazy dog today. Another line."

def c5Q : Question := (tfQuestions c5Text).headD ⟨"", "", "", "", []⟩

theorem tf_correct_always_true_witness :
    c5Q.correctAnswer = "true" ∧ c5Q.options = ["True", "False"] ∧
      c5Q.correctAnswer ≠ "false" :=
  tf_correct_always_true c5Text c5Q (by decide)

/-- C8: a fill-in-the-blank response grades correct exactly when its
lowercased form with every character outside the lowercase letters deleted
equals the stored correct answer; in particular the padded mixed-case
example grades correct against photosynthesis. -/
theorem fib_grading_normalized_iff :
    (∀ response correctAnswer : String,
      gradeFillBlank response correctAnswer = true ↔
        (⟨((asciiLower response).data.filter isAsciiLower)⟩ : String) = correctAnswer) ∧
    gradeFillBlank " PhotoSynthesis!! " "photosynthesis" = true := by
  constructor
  · intro r a
    constructor
    · intro h
      exact of_decide_eq_true h
    · intro h
      exact decide_eq_true h
  · decide

/-- C9 (amended): the fallback scan is consulted exactly when the primary
BT..ET result is shorter than 100 characters; in that case the returned
pre-clean text is the join of the alphabetic-run matches with spaces when
at least one match exists, and the sub-100-character primary result is
kept when the scan finds no match, which happens exactly when the buffer
contains no run of three consecutive ASCII letters. -/
theorem salvage_fallback_policy (buffer : List Char) :
    (preCleanExtract buffer =
      if (primaryText buffer).length < 100 then
        (if readScan buffer = [] then primaryText buffer
         else String.intercalate " " (readScan buffer))
      else primaryText buffer) ∧
    (readScan buffer = [] ↔ hasAlphaRun3 buffer = false) := by
  constructor
  · unfold preCleanExtract
    split
    · cases h : readScan buffer with
      | nil => simp [h]
      | cons m ms => simp [h]
    · rfl
  · exact readScan_eq_nil_iff buffer

def c9Buf : List Char := "BT (ab) (cd) ET".data

/-- C9 counterexample: the primary result is shorter than 100 characters,
yet the returned pre-clean text is the kept primary result rather than the
join of the (empty) fallback match list, so the sub-100-character primary
result is not always discarded. -/
theorem salvage_fallback_keeps_primary :
    (primaryText c9Buf).length < 100 ∧
    readScan c9Buf = [] ∧
    preCleanExtract c9Buf = "ab cd " ∧
    preCleanExtract c9Buf ≠ String.intercalate " " (readScan c9Buf) :=
  ⟨by decide, by decide, by decide, by decide⟩

/-- C10: every fill-in-the-blank question stores a nonempty all-lowercase
alphabetic correct answer of length at least 5. -/
theorem fib_answer_lowercase_alpha (text : String) :
    ∀ q ∈ fibQuestions text,
      5 ≤ q.correctAnswer.length ∧ q.correctAnswer.data.all isAsciiLower = true ∧
        q.correctAnswer ≠ "" := by
  intro q hq
  unfold fibQuestions at hq
  rw [List.mem_filterMap] at hq
  obtain ⟨p, _, hp⟩ := hq
  unfold fibOfSentence at hp
  split at hp
  · exact absurd hp (by simp)
  · rename_i mw rest heq
    simp only [Option.some.injEq] at hp
    subst hp
    have hmem : mw ∈ meaningfulWords (jsSplitWs p.2) := by
      rw [heq]
      exact List.mem_cons_self _ _
    unfold meaningfulWords at hmem
    replace hmem := (stableSort_perm _ _).mem_iff.mp hmem
    rw [List.mem_filter] at hmem
    obtain ⟨hmw1, hmw2⟩ := hmem
    rw [List.mem_map] at hmw1
    obtain ⟨e, he, hemw⟩ := hmw1
    rw [List.mem_enum_iff_getElem?] at he
    rw [Bool.and_eq_true, decide_eq_true_eq] at hmw2
    have hword : (jsSplitWs p.2).getD mw.2 "" = mw.1 := by
      rw [List.getD_eq_getElem?_getD]
      rw [← hemw] at *
      simp only at he ⊢
      rw [he]
      rfl
    have halpha : mw.1.data.all isAsciiAlpha = true := by
      have h2 := hmw2.2
      unfold isPureAlphaTok at h2
      rw [Bool.and_eq_true] at h2
      exact h2.2
    have hnorm := normalized_alpha_word halpha
    simp only [Question.correctAnswer]
    rw [hword]
    have hlen : ((asciiLower mw.1).data.filter isAsciiLower).length = mw.1.length :=
      hnorm.1
    refine ⟨?_, hnorm.2, ?_⟩
    · have h4 := hmw2.1
      have : (⟨(asciiLower mw.1).data.filter isAsciiLower⟩ : String).length =
          ((asciiLower mw.1).data.filter isAsciiLower).length := rfl
      rw [this, hlen]
      omega
    · intro hcontra
      have h0 : (⟨(asciiLower mw.1).data.filter isAsciiLower⟩ : String).length = 0 := by
        rw [hcontra]
        rfl
      have h1 : (⟨(asciiLower mw.1).data.filter isAsciiLower⟩ : String).length =
          ((asciiLower mw.1).data.filter isAsciiLower).length := rfl
      rw [h1, hlen] at h0
      have h4 := hmw2.1
      omega

def c10Text : String :=
  "The quick brown fox jumps over the lazy dog today. Another line."

def c10Q : Question := (fibQuestions c10Text).headD ⟨"", "", "", "", []⟩

theorem fib_answer_lowercase_alpha_witness :
    5 ≤ c10Q.correctAnswer.length ∧ c10Q.correctAnswer.data.all isAsciiLower = true ∧
      c10Q.correctAnswer ≠ "" :=
  fib_answer_lowercase_alpha c10Text c10Q (by decide)

end FR
